import Mathlib

/-!
Verification of an Advent-of-Code 2022 solution repository (Rust).

Each Rust solver is shallowly embedded as a pure Lean function over the
input file's content, modelled as a `List Char`.  Machine integers are
modelled as `Nat`/`Int`; places where the Rust code can panic (index out
of bounds, `usize` subtraction underflow, a truncating `as` cast) are
modelled explicitly where a claim depends on them.
-/

set_option maxRecDepth 10000

/-! ## Common string utilities

`splitBy p` mirrors Rust's `str::split` / `slice::split`: separators are
removed, empty pieces are kept (including leading/trailing ones).
-/

def splitBy (p : α → Bool) : List α → List (List α)
  | [] => [[]]
  | x :: xs =>
    let r := splitBy p xs
    if p x then [] :: r
    else
      match r with
      | [] => [[x]]
      | y :: ys => (x :: y) :: ys

/-- Strip one trailing carriage return, as `BufRead::lines` does for lines
terminated by `"\r\n"`. -/
def stripCR (l : List Char) : List Char :=
  if l.getLast? = some '\r' then l.dropLast else l

/-- Rust's `BufRead::lines` / `str::lines` over the whole content: split on
`'\n'`; every piece except the final unterminated one loses a trailing
`'\r'`; a trailing newline does not produce a final empty line. -/
def rustLines (cs : List Char) : List (List Char) :=
  match (splitBy (fun c => c == '\n') cs).reverse with
  | [] => []
  | lastP :: revInit =>
    let initLines := revInit.reverse.map stripCR
    if lastP = [] then initLines else initLines ++ [lastP]

inductive Shape where
  | Rock
  | Paper
  | Scissors
deriving DecidableEq

inductive GameResult where
  | Loss
  | Draw
  | Won
deriving DecidableEq

inductive Should where
  | Lose
  | Draw
  | Win
deriving DecidableEq

/-- Rust `impl FromStr for Shape`. -/
def shape_from_str : List Char → Option Shape
  | ['A'] => some Shape.Rock
  | ['B'] => some Shape.Paper
  | ['C'] => some Shape.Scissors
  | _ => none

/-- Rust `impl FromStr for Should`. -/
def should_from_str : List Char → Option Should
  | ['X'] => some Should.Lose
  | ['Y'] => some Should.Draw
  | ['Z'] => some Should.Win
  | _ => none

/-- Rust `what_to_play` (day 2). -/
def what_to_play : Shape × Should → Shape
  | (Shape.Rock, Should.Lose) => Shape.Scissors
  | (Shape.Rock, Should.Win) => Shape.Paper
  | (Shape.Paper, Should.Lose) => Shape.Rock
  | (Shape.Paper, Should.Win) => Shape.Scissors
  | (Shape.Scissors, Should.Lose) => Shape.Paper
  | (Shape.Scissors, Should.Win) => Shape.Rock
  | (p, Should.Draw) => p

/-- Rust `parse_game` (day 2): split on `' '`, require exactly two pieces, parse
the opponent's shape and the hint, and pair the opponent's shape with the
shape `what_to_play` chooses. -/
def parse_game (s : List Char) : Option (Shape × Shape) :=
  match splitBy (fun c => c == ' ') s with
  | [p0, p1] =>
    match shape_from_str p0 with
    | none => none
    | some op =>
      match should_from_str p1 with
      | none => none
      | some h => some (op, what_to_play (op, h))
  | _ => none

/-- Rust `run_game` (day 2). -/
def run_game : Shape × Shape → GameResult
  | (Shape.Rock, Shape.Paper) => GameResult.Won
  | (Shape.Rock, Shape.Scissors) => GameResult.Loss
  | (Shape.Paper, Shape.Rock) => GameResult.Loss
  | (Shape.Paper, Shape.Scissors) => GameResult.Won
  | (Shape.Scissors, Shape.Rock) => GameResult.Won
  | (Shape.Scissors, Shape.Paper) => GameResult.Loss
  | _ => GameResult.Draw

/-- Rust `shape_score` (day 2). -/
def shape_score : Shape × Shape → Nat
  | (_, Shape.Rock) => 1
  | (_, Shape.Paper) => 2
  | (_, Shape.Scissors) => 3

/-- Rust `score` (day 2). -/
def score (g : Shape × Shape) : Nat :=
  shape_score g +
    match run_game g with
    | GameResult.Won => 6
    | GameResult.Draw => 3
    | GameResult.Loss => 0

def rpsFold : List (List Char) → Nat → Option Nat
  | [], acc => some acc
  | l :: ls, acc =>
    match parse_game l with
    | some g => rpsFold ls (acc + score g)
    | none => none

/-- Rust `rock_paper_scissors` (day 2), as a pure function of the file content:
parse each line as a game and sum the scores; the first malformed line
aborts with an error (`none`). -/
def rock_paper_scissors (content : List Char) : Option Nat :=
  rpsFold (rustLines content) 0

/-! ## Day 6 (`src/day6/mod.rs`) -/

/-- The window `buffer[i..i+n]` that Rust's `windows(n)` yields. -/
def window (buffer : List Char) (n i : Nat) : List Char :=
  (buffer.drop i).take n

/-- Rust `find_marker` (day 6): the first index `i` (if any) whose length-`n`
window consists of pairwise-distinct characters (the `BTreeSet` length
test), shifted by the marker length. -/
def find_marker (buffer : List Char) (n : Nat) : Option Nat :=
  ((List.range (buffer.length + 1 - n)).find?
      (fun i => decide (window buffer n i).Nodup)).map (· + n)

/-- Rust `fix_device` (day 6) as a pure function of the file content. -/
def fix_device (content : List Char) : Option (Nat × Nat) :=
  match find_marker content 4 with
  | none => none
  | some a =>
    match find_marker content 14 with
    | none => none
    | some b => some (a, b)

/-! ## Day 1 (`src/day1/mod.rs`) -/

structure Position where
  x : Int
  y : Int
deriving DecidableEq

inductive Move9 where
  | up (d : Nat)
  | down (d : Nat)
  | left (d : Nat)
  | right (d : Nat)
deriving DecidableEq

/-- Rust `Move::on_x`: the `as u8` cast truncates the absolute value mod 256. -/
def on_x (v : Int) : Move9 :=
  if v < 0 then Move9.left (v.natAbs % 256) else Move9.right (v.natAbs % 256)

/-- Rust `Move::on_y`. -/
def on_y (v : Int) : Move9 :=
  if v < 0 then Move9.down (v.natAbs % 256) else Move9.up (v.natAbs % 256)

/-- Rust `Move::small_step`. -/
def small_step : Move9 → Move9
  | Move9.up d => Move9.up (if d ≠ 0 then 1 else 0)
  | Move9.down d => Move9.down (if d ≠ 0 then 1 else 0)
  | Move9.left d => Move9.left (if d ≠ 0 then 1 else 0)
  | Move9.right d => Move9.right (if d ≠ 0 then 1 else 0)

/-- Rust `Position::move_to`. -/
def move_to (p : Position) : Move9 → Position
  | Move9.up d => ⟨p.x, p.y + d⟩
  | Move9.down d => ⟨p.x, p.y - d⟩
  | Move9.left d => ⟨p.x - d, p.y⟩
  | Move9.right d => ⟨p.x + d, p.y⟩

/-- Rust `Position::path_to`.  The Rust `match` on the difference pair, written
as the equivalent cascade of its arms in order. -/
def path_to (s other : Position) : List Move9 :=
  let x := other.x - s.x
  let y := other.y - s.y
  if x = 0 ∧ y = 0 then []
  else if x = 0 then [small_step (on_y y)]
  else if y = 0 then [small_step (on_x x)]
  else [small_step (on_x x), small_step (on_y y)]

/-- Rust `Position::is_around`. -/
def is_around (s other : Position) : Bool :=
  (s.x - other.x).natAbs ≤ 1 && (s.y - other.y).natAbs ≤ 1

/-- One iteration of the `while` loop body of `Position::move_next_to`:
recompute `path_to` and apply each small move. -/
def loopStep (s target : Position) : Position :=
  (path_to s target).foldl move_to s

/-- Rust `Position::move_next_to`, with explicit fuel: `none` means the `while`
loop did not reach `is_around` within `fuel` iterations. -/
def move_next_to_fuel : Nat → Position → Position → Option Position
  | 0, s, target => if is_around s target then some s else none
  | f + 1, s, target =>
    if is_around s target then some s
    else move_next_to_fuel f (loopStep s target) target

/-- Chebyshev distance `max(|dx|, |dy|)`; the claim's termination measure. -/
def cheb (s target : Position) : Nat :=
  max (target.x - s.x).natAbs (target.y - s.y).natAbs

/-! ## Day 11 (`src/day11/mod.rs`)

Worry values (`u64`) are modelled as `Nat`; monkey ids as `Nat`.
-/

inductive Op where
  | add (x : Nat)
  | mult (x : Nat)
  | square
deriving DecidableEq

structure ThrowDecision where
  modulus : Nat
  ifTrue : Nat
  ifFalse : Nat
deriving DecidableEq

structure Monkey where
  id : Nat
  items : List Nat
  operation : Op
  throwDecision : ThrowDecision
deriving DecidableEq

/-- Rust `ThrowDecision::take_decision`. -/
def take_decision (td : ThrowDecision) (itemValue : Nat) : Nat :=
  if itemValue % td.modulus = 0 then td.ifTrue else td.ifFalse

/-- Rust `Monkey::inspect_item`: the item's worry value is reduced modulo
`md` before the monkey's operation is applied.  The `u64` arithmetic is
modelled exactly: the addition/multiplication wraps modulo `2^64`, and
`item.0 % md` with `md = 0` is Rust's remainder-by-zero panic, modelled as
`none`. -/
def inspect_item (m : Monkey) (item md : Nat) : Option (Nat × Nat) :=
  if md = 0 then none
  else
    let newWorry :=
      match m.operation with
      | Op.add x => (item % md + x) % 18446744073709551616
      | Op.mult x => (item % md) * x % 18446744073709551616
      | Op.square => (item % md) * (item % md) % 18446744073709551616
    some (take_decision m.throwDecision newWorry, newWorry)

/-- Modelled from the spec: the reference inspection that keeps worry
values exact (no reduction modulo `md`, unbounded integers), used by the
reference simulation the claim compares against. -/
def inspect_item_exact (m : Monkey) (item : Nat) : Nat × Nat :=
  let newWorry :=
    match m.operation with
    | Op.add x => item + x
    | Op.mult x => item * x
    | Op.square => item * item
  (take_decision m.throwDecision newWorry, newWorry)

/-- Rust `round_items[target].push(item)`; out-of-range targets are dropped
(the Rust code would panic there, identically in both simulations). -/
def pushAt : Nat → Nat → List (List Nat) → List (List Nat)
  | _, _, [] => []
  | 0, x, l :: ls => (l ++ [x]) :: ls
  | i + 1, x, l :: ls => l :: pushAt i x ls

/-- The monkey's operation applied to any value reduced modulo `md` stays
below `2^64`, so none of `inspect_item`'s `u64` operations wraps. -/
def opFits (m : Monkey) (md : Nat) : Bool :=
  match m.operation with
  | Op.add x => md - 1 + x < 18446744073709551616
  | Op.mult x => (md - 1) * x < 18446744073709551616
  | Op.square => (md - 1) * (md - 1) < 18446744073709551616

/-- The inner `for item in items_to_inspect` loop of `rounds`; `none`
propagates the remainder-by-zero panic. -/
def monkeyTurn : Monkey → Nat → List Nat → List (List Nat) → Option (List (List Nat))
  | _, _, [], pending => some pending
  | m, md, item :: rest, pending =>
    match inspect_item m item md with
    | none => none
    | some r => monkeyTurn m md rest (pushAt r.1 r.2 pending)

/-- The `for (mk, monkey_items) in items.iter().enumerate()` loop of
`rounds`: `mk` is the current monkey index, `items` the queues at the start
of the round, `pending` the queues being built for this round. -/
def roundLoop : List Monkey → Nat → Nat → List (List Nat) → List (List Nat) →
    List Nat → Option (List (List Nat) × List Nat)
  | [], _, _, _, pending, counts => some (pending, counts)
  | m :: ms, mk, md, items, pending, counts =>
    let toInspect := items.getD mk [] ++ pending.getD mk []
    let pending1 := pending.set mk []
    let counts1 := counts.set mk (counts.getD mk 0 + toInspect.length)
    match monkeyTurn m md toInspect pending1 with
    | none => none
    | some pending2 => roundLoop ms (mk + 1) md items pending2 counts1

def roundsAux : Nat → List Monkey → Nat → List (List Nat) → List Nat → Option (List Nat)
  | 0, _, _, _, counts => some counts
  | n + 1, monkeys, md, items, counts =>
    match roundLoop monkeys 0 md items (List.replicate items.length []) counts with
    | none => none
    | some r => roundsAux n monkeys md r.1 r.2

/-- Rust `rounds` (day 11): run `n` rounds with worry values reduced modulo
`md`, the `u64` product of all monkeys' moduli (each multiplication of the
product wraps modulo `2^64`), and return the per-monkey inspection counts;
`none` is the panic of `item.0 % md` when the wrapped product is zero. -/
def rounds (monkeys : List Monkey) (n : Nat) : Option (List Nat) :=
  let md := (monkeys.map (fun m => m.throwDecision.modulus)).foldl
    (fun acc x => acc * x % 18446744073709551616) 1
  roundsAux n monkeys md (monkeys.map (fun m => m.items)) (List.replicate monkeys.length 0)

/-- Modelled from the spec: the exact inner item loop of the reference
simulation (unbounded worry values, no reduction). -/
def monkeyTurnExact (m : Monkey) (toInspect : List Nat)
    (pending : List (List Nat)) : List (List Nat) :=
  toInspect.foldl
    (fun pend item =>
      let r := inspect_item_exact m item
      pushAt r.1 r.2 pend)
    pending

/-- Modelled from the spec: the reference per-round monkey loop. -/
def roundLoopExact : List Monkey → Nat → List (List Nat) → List (List Nat) →
    List Nat → List (List Nat) × List Nat
  | [], _, _, pending, counts => (pending, counts)
  | m :: ms, mk, items, pending, counts =>
    let toInspect := items.getD mk [] ++ pending.getD mk []
    let pending1 := pending.set mk []
    let counts1 := counts.set mk (counts.getD mk 0 + toInspect.length)
    roundLoopExact ms (mk + 1) items (monkeyTurnExact m toInspect pending1) counts1

def roundsAuxExact : Nat → List Monkey → List (List Nat) → List Nat → List Nat
  | 0, _, _, counts => counts
  | n + 1, monkeys, items, counts =>
    let r := roundLoopExact monkeys 0 items (List.replicate items.length []) counts
    roundsAuxExact n monkeys r.1 r.2

/-- Modelled from the spec: the reference simulation that keeps worry
values exact (unbounded integers, no reduction) and otherwise runs the
same round structure as `rounds`. -/
def roundsExact (monkeys : List Monkey) (n : Nat) : List Nat :=
  roundsAuxExact n monkeys (monkeys.map (fun m => m.items)) (List.replicate monkeys.length 0)

/-! ## Day 12 (`src/day12/mod.rs`)

`build_journey` constructs a directed graph on the grid cells with an edge
from `p` to `q` exactly when `p` and `q` are orthogonally adjacent cells of
the grid and `elevation(q) - elevation(p) <= 1`.  `petgraph::algo::dijkstra`
with weight `|_| 1` is modelled as breadth-first least-hops distance.
-/

/-- Rust `to_elevation` (day 12).  The Rust `unreachable!` arm (a non-lowercase
character other than `S`/`E`) is never hit on the grids considered here. -/
def to_elevation (c : Char) : Int :=
  if c = 'S' then 97 else if c = 'E' then 122 else (c.toNat : Int)

def gridInBounds (map : List (List Char)) (i j : Nat) : Bool :=
  i < map.length && j < (map.getD i []).length

def elevAt (map : List (List Char)) (i j : Nat) : Int :=
  to_elevation ((map.getD i []).getD j 'a')

/-- The edge relation of the `build_journey` graph. -/
def roadEdge (map : List (List Char)) (p q : Nat × Nat) : Bool :=
  gridInBounds map p.1 p.2 && gridInBounds map q.1 q.2 &&
    ((p.1 == q.1 && (p.2 + 1 == q.2 || q.2 + 1 == p.2)) ||
      (p.2 == q.2 && (p.1 + 1 == q.1 || q.1 + 1 == p.1))) &&
    (elevAt map q.1 q.2 - elevAt map p.1 p.2 ≤ 1)

def allCells (map : List (List Char)) : List (Nat × Nat) :=
  ((List.range map.length).map
      (fun i => (List.range (map.getD i []).length).map (fun j => (i, j)))).flatten

/-- Rust `possible_starts`: every cell that is not `'E'` and has elevation
`to_elevation('a')` (this includes `'S'`). -/
def possible_starts (map : List (List Char)) : List (Nat × Nat) :=
  (allCells map).filter
    (fun c => ((map.getD c.1 []).getD c.2 'a' != 'E') && (elevAt map c.1 c.2 == 97))

/-- Rust `end_node`: the last cell holding `'E'` (the Rust loop overwrites). -/
def endLoc (map : List (List Char)) : Option (Nat × Nat) :=
  ((allCells map).filter (fun c => (map.getD c.1 []).getD c.2 'a' == 'E')).getLast?

/-- One breadth-first expansion of the set of reached cells. -/
def reachStep (map : List (List Char)) (cur : List (Nat × Nat)) : List (Nat × Nat) :=
  cur ++ (allCells map).filter
    (fun q => !cur.contains q && cur.any (fun p => roadEdge map p q))

def bfsGo (map : List (List Char)) (tgt : Nat × Nat) :
    Nat → List (Nat × Nat) → Nat → Option Nat
  | 0, _, _ => none
  | f + 1, cur, d =>
    if cur.contains tgt then some d else bfsGo map tgt f (reachStep map cur) (d + 1)

/-- Least number of hops from `start` to `tgt` along `roadEdge` edges;
`none` when `tgt` is unreachable.  This models `petgraph::algo::dijkstra`
with constant edge weight 1 followed by the distance-map lookup. -/
def bfsDist (map : List (List Char)) (start tgt : Nat × Nat) : Option Nat :=
  bfsGo map tgt ((allCells map).length + 1) [start] 0

def minList : List Nat → Option Nat
  | [] => none
  | x :: xs =>
    some (match minList xs with
      | none => x
      | some m => min x m)

/-- Rust `build_journey` followed by `Journey::path_hops`: the minimum over all
possible starts of the shortest-path hop count to the end cell. -/
def path_hops (map : List (List Char)) : Option Nat :=
  match endLoc map with
  | none => none
  | some e => minList ((possible_starts map).filterMap (fun s => bfsDist map s e))

/-- The fixed 5x8 grid of the day-12 unit test. -/
def exampleMap : List (List Char) :=
  [['S', 'a', 'b', 'q', 'p', 'o', 'n', 'm'],
   ['a', 'b', 'c', 'r', 'y', 'x', 'x', 'l'],
   ['a', 'c', 'c', 's', 'z', 'E', 'x', 'k'],
   ['a', 'c', 'c', 't', 'u', 'v', 'w', 'j'],
   ['a', 'b', 'd', 'e', 'f', 'g', 'h', 'i']]

/-! ## Day 7 (`src/day7/mod.rs`) — filesystem tree

A `dendron` tree of `FsNode` values is modelled as a rose tree `FsTree`;
the fold's current node (a `Node` handle) is modelled as the path of child
indices from the root.
-/

structure FsNodeInfo where
  name : List Char
  size : Nat
deriving DecidableEq

inductive FsNode where
  | fsDirectory (info : FsNodeInfo)
  | fsFile (info : FsNodeInfo)
deriving DecidableEq

def FsNode.name : FsNode → List Char
  | .fsDirectory info => info.name
  | .fsFile info => info.name

def FsNode.size : FsNode → Nat
  | .fsDirectory info => info.size
  | .fsFile info => info.size

/-- Rust `FsNode::increase_size`: only directories grow; files are unchanged. -/
def increase_size : FsNode → Nat → FsNode
  | .fsDirectory info, sz => .fsDirectory ⟨info.name, info.size + sz⟩
  | .fsFile info, _ => .fsFile info

inductive TreeBuildCommand where
  | moveToParent
  | createDir (name : List Char)
  | createFile (name : List Char) (size : Nat)
  | moveTo (name : List Char)
  | doNothing
deriving DecidableEq

inductive FsTree where
  | node (data : FsNode) (children : List FsTree)

def FsTree.data : FsTree → FsNode
  | .node d _ => d

def FsTree.children : FsTree → List FsTree
  | .node _ cs => cs

mutual

def fileSizeSum : FsTree → Nat
  | .node d cs =>
    (match d with
      | .fsFile info => info.size
      | .fsDirectory _ => 0) + fileSizeSumL cs

def fileSizeSumL : List FsTree → Nat
  | [] => 0
  | t :: ts => fileSizeSum t + fileSizeSumL ts

end

mutual

/-- The invariant of claim C2: every directory's `size` field equals the
sum of the `size` fields of all files in its subtree. -/
def sizesOk : FsTree → Bool
  | .node d cs =>
    (match d with
      | .fsDirectory info => info.size == fileSizeSumL cs
      | .fsFile _ => true) && sizesOkL cs

def sizesOkL : List FsTree → Bool
  | [] => true
  | t :: ts => sizesOk t && sizesOkL ts

end

/-- Apply `g` to the `i`-th element, if present. -/
def updList (g : FsTree → FsTree) : Nat → List FsTree → List FsTree
  | _, [] => []
  | 0, t :: ts => g t :: ts
  | j + 1, t :: ts => t :: updList g j ts

/-- Apply `g` to the subtree at path `p`. -/
def updAt : List Nat → (FsTree → FsTree) → FsTree → FsTree
  | [], g => g
  | i :: p, g => fun t =>
    match t with
    | .node d cs => .node d (updList (updAt p g) i cs)

/-- Rust `node.ancestors_or_self().for_each(|n| n.borrow_data_mut().increase_size(sz))`:
add `sz` to every node on the path from the root to the current node
(`increase_size` itself skips files). -/
def incAlong (sz : Nat) : List Nat → FsTree → FsTree
  | [] => fun t =>
    match t with
    | .node d cs => .node (increase_size d sz) cs
  | i :: p => fun t =>
    match t with
    | .node d cs => .node (increase_size d sz) (updList (incAlong sz p) i cs)

/-- The subtree at path `p`, if the path exists. -/
def getAt : List Nat → FsTree → Option FsTree
  | [] => fun t => some t
  | i :: p => fun t =>
    match t.children[i]? with
    | some c => getAt p c
    | none => none

/-- Rust `node.children().find(|e| *e.borrow_data().name() == child)`: index of
the first child (file or directory) with the given name. -/
def findChild (nm : List Char) : List FsTree → Option Nat
  | [] => none
  | t :: ts =>
    if t.data.name = nm then some 0 else (findChild nm ts).map (· + 1)

def newDirNode (nm : List Char) : FsTree := .node (.fsDirectory ⟨nm, 0⟩) []

def newFileNode (nm : List Char) (sz : Nat) : FsTree := .node (.fsFile ⟨nm, sz⟩) []

def appendChild (c : FsTree) : FsTree → FsTree
  | .node d cs => .node d (cs ++ [c])

/-- One step of the `fold_many1` accumulator in `file_system`: the state is
the whole tree plus the current node's path. -/
def applyCmd : FsTree × List Nat → TreeBuildCommand → FsTree × List Nat
  | (t, p), .moveToParent => (t, p.dropLast)
  | (t, p), .moveTo nm =>
    (match getAt p t with
      | some cur =>
        match findChild nm cur.children with
        | some i => (t, p ++ [i])
        | none => (t, p)
      | none => (t, p))
  | (t, p), .createDir nm => (updAt p (appendChild (newDirNode nm)) t, p)
  | (t, p), .createFile nm sz =>
    (incAlong sz p (updAt p (appendChild (newFileNode nm sz)) t), p)
  | s, .doNothing => s

def rootState : FsTree × List Nat := (.node (.fsDirectory ⟨['/'], 0⟩) [], [])

/-- The pure fold of `file_system` over an already-parsed command list. -/
def buildFs (cmds : List TreeBuildCommand) : FsTree :=
  (cmds.foldl applyCmd rootState).1

/-! ## Day 7 — the `nom` transcript parser

`Parser α` is `nom`'s `IResult` specialised to complete input: `none` is a
parse error, `some (a, rest)` success with unconsumed `rest`.
-/

def Parser (α : Type) : Type := List Char → Option (α × List Char)

/-- Rust `nom::bytes::complete::tag`. -/
def ptag (t : List Char) : Parser (List Char) := fun i =>
  if i.take t.length = t then some (t, i.drop t.length) else none

/-- A `take_while1`-style combinator. -/
def takeWhile1P (f : Char → Bool) : Parser (List Char) := fun i =>
  let pre := i.takeWhile f
  if pre.isEmpty then none else some (pre, i.dropWhile f)

/-- Rust `nom::character::complete::alphanumeric1` (ASCII letters and digits). -/
def palnum1 : Parser (List Char) := takeWhile1P Char.isAlphanum

/-- Rust `nom::character::complete::digit1`. -/
def pdigit1 : Parser (List Char) := takeWhile1P Char.isDigit

/-- Rust `nom::character::complete::space1` (spaces and tabs). -/
def pspace1 : Parser (List Char) := takeWhile1P (fun c => c == ' ' || c == '\t')

/-- Rust `nom::character::complete::line_ending` (`"\n"` or `"\r\n"`). -/
def plineEnding : Parser (List Char) := fun i =>
  match i with
  | '\n' :: r => some (['\n'], r)
  | '\r' :: '\n' :: r => some (['\r', '\n'], r)
  | _ => none

/-- Rust `nom::combinator::eof`. -/
def peof : Parser (List Char) := fun i =>
  if i.isEmpty then some ([], i) else none

def palt (p q : Parser α) : Parser α := fun i =>
  match p i with
  | some r => some r
  | none => q i

def pchar (c : Char) : Parser Char := fun i =>
  match i with
  | x :: r => if x = c then some (c, r) else none
  | [] => none

/-- Rust `nom::combinator::recognize`: run `p`, return the consumed slice. -/
def precognize (p : Parser α) : Parser (List Char) := fun i =>
  match p i with
  | some (_, rest) => some (i.take (i.length - rest.length), rest)
  | none => none

/-- Rust `delimited(alphanumeric1, char('.'), alphanumeric1)`, payload ignored. -/
def dottedName : Parser Unit := fun i =>
  match palnum1 i with
  | none => none
  | some (_, r1) =>
    match pchar '.' r1 with
    | none => none
    | some (_, r2) =>
      match palnum1 r2 with
      | none => none
      | some (_, r3) => some ((), r3)

/-- Rust `file_name` (day 7). -/
def file_name : Parser (List Char) := palt (precognize dottedName) palnum1

/-- Rust `size` (day 7): `map_res(digit1, parse::<usize>)`, with the `usize`
range bound. -/
def sizeP : Parser Nat := fun i =>
  match pdigit1 i with
  | none => none
  | some (ds, r) =>
    let v := ds.foldl (fun a c => a * 10 + (c.toNat - 48)) 0
    if v < 18446744073709551616 then some (v, r) else none

/-- Rust `file_statement` (day 7). -/
def file_statement : Parser TreeBuildCommand := fun i =>
  match sizeP i with
  | none => none
  | some (sz, r1) =>
    match pspace1 r1 with
    | none => none
    | some (_, r2) =>
      match file_name r2 with
      | none => none
      | some (nm, r3) =>
        match palt plineEnding peof r3 with
        | none => none
        | some (_, r4) => some (TreeBuildCommand.createFile nm sz, r4)

/-- Rust `dir_name` (day 7). -/
def dir_name : Parser (List Char) := palt palnum1 (ptag ['/'])

/-- Rust `dir_statement` (day 7). -/
def dir_statement : Parser TreeBuildCommand := fun i =>
  match ptag ['d', 'i', 'r', ' '] i with
  | none => none
  | some (_, r1) =>
    match dir_name r1 with
    | none => none
    | some (nm, r2) =>
      match palt plineEnding peof r2 with
      | none => none
      | some (_, r3) => some (TreeBuildCommand.createDir nm, r3)

/-- Rust `ls_statement` (day 7). -/
def ls_statement : Parser TreeBuildCommand := fun i =>
  match ptag ['$', ' ', 'l', 's'] i with
  | none => none
  | some (_, r1) =>
    match palt plineEnding peof r1 with
    | none => none
    | some (_, r2) => some (TreeBuildCommand.doNothing, r2)

/-- Rust `cd_statement` (day 7). -/
def cd_statement : Parser TreeBuildCommand := fun i =>
  match ptag ['$', ' ', 'c', 'd', ' '] i with
  | none => none
  | some (_, r1) =>
    match palt dir_name (ptag ['.', '.']) r1 with
    | none => none
    | some (nm, r2) =>
      match palt plineEnding peof r2 with
      | none => none
      | some (_, r3) =>
        some (if nm = ['.', '.'] then TreeBuildCommand.moveToParent
          else TreeBuildCommand.moveTo nm, r3)

/-- The statement alternative of `file_system`, in source order. -/
def statementP : Parser TreeBuildCommand :=
  palt file_statement (palt dir_statement (palt ls_statement cd_statement))

/-- The repetition part of `fold_many1`: keep folding while the statement
parser succeeds and consumes input (zero consumption is `nom`'s `Many1`
error); stop at the first parse failure. -/
def foldMany1Go : Nat → FsTree × List Nat → List Char →
    Option ((FsTree × List Nat) × List Char)
  | fuel, st, i =>
    match statementP i with
    | none => some (st, i)
    | some (cmd, r) =>
      match fuel with
      | 0 => none
      | f + 1 =>
        if r.length < i.length then foldMany1Go f (applyCmd st cmd) r else none

/-- Rust `file_system` (day 7): `fold_many1` of the statement parser, starting
from a lone `/` directory, returning the root of the resulting tree and
the unconsumed input. -/
def file_system (i : List Char) : Option (FsTree × List Char) :=
  match statementP i with
  | none => none
  | some (cmd, r) =>
    if r.length < i.length then
      (foldMany1Go i.length (applyCmd rootState cmd) r).map
        (fun sr => (sr.1.1, sr.2))
    else none

mutual

/-- Rust `total_size_of_directories_up_to` (day 7): the sum of the sizes of all
directories in the tree with size below `maxSize` (traversal order does
not affect a sum). -/
def total_size_of_directories_up_to : FsTree → Nat → Nat
  | .node d cs, maxSize =>
    (match d with
      | .fsDirectory info => if info.size < maxSize then info.size else 0
      | .fsFile _ => 0) + totalSizeL cs maxSize

def totalSizeL : List FsTree → Nat → Nat
  | [], _ => 0
  | t :: ts, maxSize => total_size_of_directories_up_to t maxSize + totalSizeL ts maxSize

end

mutual

/-- The sizes of all directories in the tree with size at least `minSize`. -/
def dirSizesGe : FsTree → Nat → List Nat
  | .node d cs, minSize =>
    (match d with
      | .fsDirectory info => if minSize ≤ info.size then [info.size] else []
      | .fsFile _ => []) ++ dirSizesGeL cs minSize

def dirSizesGeL : List FsTree → Nat → List Nat
  | [], _ => []
  | t :: ts, minSize => dirSizesGe t minSize ++ dirSizesGeL ts minSize

end

/-- Rust `smallest_directory_to_delete_size` (day 7): `.min().unwrap_or(0)`. -/
def smallest_directory_to_delete_size (fs : FsTree) (minSize : Nat) : Nat :=
  match minList (dirSizesGe fs minSize) with
  | some v => v
  | none => 0

/-- The outcome of `total_size_of_small_directories_and_smallest_to_delete`:
`parseFailure` is the `?`-propagated `nom` error; `underflowPanic` is the
panic of the `usize` subtraction `fs_size - (70_000_000 - 30_000_000)`
when `fs_size` is smaller. -/
inductive Day7Out where
  | ok (v : Nat × Nat)
  | parseFailure
  | underflowPanic
deriving DecidableEq

/-- Rust `total_size_of_small_directories_and_smallest_to_delete` (day 7) as a
pure function of the file content. -/
def total_size_of_small_directories_and_smallest_to_delete
    (content : List Char) : Day7Out :=
  match file_system content with
  | none => Day7Out.parseFailure
  | some (fs, _rest) =>
    let fsSize := fs.data.size
    if fsSize < 70000000 - 30000000 then Day7Out.underflowPanic
    else
      Day7Out.ok
        (total_size_of_directories_up_to fs 100000,
          smallest_directory_to_delete_size fs (fsSize - (70000000 - 30000000)))

/-- Modelled from the spec: the game outcome each hint asks for (claim C9). -/
def outcomeOfHint : Should → GameResult
  | Should.Lose => GameResult.Loss
  | Should.Draw => GameResult.Draw
  | Should.Win => GameResult.Won

/-! # Theorems -/

/-! ## Claim C9 -/

/-- C9: for every opponent shape `s` and hint `h`, playing the shape chosen
by `what_to_play` realises exactly the hinted outcome: `run_game` returns
`Loss` for `Should::Lose`, `Draw` for `Should::Draw`, `Won` for
`Should::Win`. -/
theorem c9_what_to_play_realises_hint :
    ∀ (s : Shape) (h : Should),
      run_game (s, what_to_play (s, h)) = outcomeOfHint h := by
  intro s h
  cases s <;> cases h <;> rfl

/-! ## Claim C10 -/

/-- C10: the public solvers are deterministic pure functions of the file
content: on identical content, two runs of `rock_paper_scissors` (day 2) or
`fix_device` (day 6) return identical results.  In this embedding both are
total functions of the content alone, so the result depends on no other
state. -/
theorem c10_solvers_deterministic :
    ∀ c₁ c₂ : List Char, c₁ = c₂ →
      rock_paper_scissors c₁ = rock_paper_scissors c₂ ∧
        fix_device c₁ = fix_device c₂ := by
  intro c₁ c₂ h
  rw [h]
  exact ⟨rfl, rfl⟩

theorem c10_witness :
    rock_paper_scissors (String.toList "A Y\nB X") =
        rock_paper_scissors (String.toList "A Y\nB X") ∧
      fix_device (String.toList "A Y\nB X") = fix_device (String.toList "A Y\nB X") :=
  c10_solvers_deterministic (String.toList "A Y\nB X") (String.toList "A Y\nB X") rfl

/-! ## Claim C1 -/

/-- C3: on the fixed 5x8 example grid, `build_journey` followed by
`path_hops` returns `Some(29)`: the minimum over every possible start (the
cells of elevation `'a'`, `'S'` included) of the least number of steps to
reach `'E'`, stepping only to an orthogonal neighbour whose elevation
exceeds the current one by at most 1. -/
theorem c3_path_hops_example : path_hops exampleMap = some 29 := by decide

/-! ## Claim C8 -/

/-- C8 counterexample: at `self = (0,0)`, `target = (256,0)` (coordinate
differences representable in `i16`), `is_around` is false but one full
iteration of the `move_next_to` loop leaves `self` unchanged — the
`.abs() as u8` cast in `Move::on_x` truncates 256 to a zero step — so the
`while` loop never terminates and the Chebyshev distance never decreases. -/
theorem c8_counterexample :
    loopStep ⟨0, 0⟩ ⟨256, 0⟩ = (⟨0, 0⟩ : Position) ∧
      is_around ⟨0, 0⟩ ⟨256, 0⟩ = false := by
  constructor <;> rfl

theorem loopStep_x (s t : Position) (hx : (t.x - s.x).natAbs ≤ 255)
    (h : is_around s t = false) :
    (loopStep s t).x =
      if t.x - s.x < 0 then s.x - 1 else if t.x - s.x = 0 then s.x else s.x + 1 := by
  simp only [is_around, Bool.and_eq_false_iff, decide_eq_false_iff_not, not_le] at h
  by_cases hdx : t.x - s.x = 0 <;> by_cases hdy : t.y - s.y = 0
  · exfalso
    rcases h with h | h <;> omega
  · simp only [loopStep, path_to, hdx, hdy, on_y, small_step, move_to]
    have hnl : ¬(t.x - s.x < 0) := by omega
    simp [hdx, hdy, hnl]
    by_cases hb : t.y < s.y <;> simp [hb, move_to]
  · have hmod : (t.x - s.x).natAbs % 256 = (t.x - s.x).natAbs := Nat.mod_eq_of_lt (by omega)
    have hne : (t.x - s.x).natAbs ≠ 0 := by
      simp [Int.natAbs_eq_zero]
      exact hdx
    by_cases hlt : t.x - s.x < 0 <;>
      simp [loopStep, path_to, hdx, hdy, on_x, small_step, move_to, hmod, hne, hlt]
  · have hmod : (t.x - s.x).natAbs % 256 = (t.x - s.x).natAbs := Nat.mod_eq_of_lt (by omega)
    have hne : (t.x - s.x).natAbs ≠ 0 := by
      simp [Int.natAbs_eq_zero]
      exact hdx
    by_cases hlt : t.x - s.x < 0 <;> by_cases hylt : t.y - s.y < 0 <;>
      simp [loopStep, path_to, hdx, hdy, on_x, on_y, small_step, move_to, hmod, hne, hlt, hylt]

theorem loopStep_y (s t : Position) (hy : (t.y - s.y).natAbs ≤ 255)
    (h : is_around s t = false) :
    (loopStep s t).y =
      if t.y - s.y < 0 then s.y - 1 else if t.y - s.y = 0 then s.y else s.y + 1 := by
  simp only [is_around, Bool.and_eq_false_iff, decide_eq_false_iff_not, not_le] at h
  by_cases hdx : t.x - s.x = 0 <;> by_cases hdy : t.y - s.y = 0
  · exfalso
    rcases h with h | h <;> omega
  · have hmod : (t.y - s.y).natAbs % 256 = (t.y - s.y).natAbs := Nat.mod_eq_of_lt (by omega)
    have hne : (t.y - s.y).natAbs ≠ 0 := by
      simp [Int.natAbs_eq_zero]
      exact hdy
    by_cases hylt : t.y - s.y < 0 <;>
      simp [loopStep, path_to, hdx, hdy, on_y, small_step, move_to, hmod, hne, hylt]
  · simp only [loopStep, path_to, hdx, hdy, on_x, small_step, move_to]
    have hnl : ¬(t.y - s.y < 0) := by omega
    simp [hdx, hdy, hnl]
    by_cases hb : t.x < s.x <;> simp [hb, move_to]
  · have hmod : (t.y - s.y).natAbs % 256 = (t.y - s.y).natAbs := Nat.mod_eq_of_lt (by omega)
    have hne : (t.y - s.y).natAbs ≠ 0 := by
      simp [Int.natAbs_eq_zero]
      exact hdy
    by_cases hlt : t.x - s.x < 0 <;> by_cases hylt : t.y - s.y < 0 <;>
      simp [loopStep, path_to, hdx, hdy, on_x, on_y, small_step, move_to, hmod, hne, hlt, hylt]

theorem loopStep_cheb (s t : Position) (hx : (t.x - s.x).natAbs ≤ 255)
    (hy : (t.y - s.y).natAbs ≤ 255) (h : is_around s t = false) :
    cheb (loopStep s t) t + 1 = cheb s t ∧
      (t.x - (loopStep s t).x).natAbs ≤ 255 ∧
      (t.y - (loopStep s t).y).natAbs ≤ 255 := by
  have hxx := loopStep_x s t hx h
  have hyy := loopStep_y s t hy h
  simp only [is_around, Bool.and_eq_false_iff, decide_eq_false_iff_not, not_le] at h
  unfold cheb
  rw [hxx, hyy]
  split_ifs <;> constructor <;> try constructor
  all_goals omega

/-- C8 (amended): `Position::move_next_to` terminates whenever both
coordinate differences have absolute value at most 255: each loop
iteration then moves `self` one step along each axis on which it differs
from `target`, strictly decreasing the Chebyshev distance
`max(|dx|,|dy|)`, and the loop exits with `is_around` true after at most
`max(|dx|,|dy|)` iterations.  (For a difference that is a nonzero
multiple of 256 the `as u8` cast truncates the step to zero and the loop
never terminates, as the counterexample shows.) -/
theorem c8_amended :
    ∀ s t : Position, (t.x - s.x).natAbs ≤ 255 → (t.y - s.y).natAbs ≤ 255 →
      ∃ p, move_next_to_fuel (cheb s t) s t = some p ∧ is_around p t = true := by
  intro s t hx hy
  generalize hn : cheb s t = n
  induction n generalizing s t with
  | zero =>
    have haround : is_around s t = true := by
      unfold cheb at hn
      simp only [is_around, Bool.and_eq_true, decide_eq_true_eq]
      omega
    exact ⟨s, by simp [move_next_to_fuel, haround], haround⟩
  | succ n ih =>
    by_cases h : is_around s t = true
    · exact ⟨s, by simp [move_next_to_fuel, h], h⟩
    · have h' : is_around s t = false := by
        simpa using h
      obtain ⟨hc, hx', hy'⟩ := loopStep_cheb s t hx hy h'
      obtain ⟨p, hp, hpa⟩ := ih (loopStep s t) t hx' hy' (by omega)
      refine ⟨p, ?_, hpa⟩
      simpa [move_next_to_fuel, h'] using hp

theorem c8_witness :
    ∃ p, move_next_to_fuel (cheb ⟨0, 0⟩ ⟨5, 3⟩) ⟨0, 0⟩ ⟨5, 3⟩ = some p ∧
      is_around p ⟨5, 3⟩ = true :=
  c8_amended ⟨0, 0⟩ ⟨5, 3⟩ (by decide) (by decide)

/-! ## Claim C5 -/

theorem splitBy_ne_nil (p : α → Bool) (l : List α) : splitBy p l ≠ [] := by
  cases l with
  | nil => simp [splitBy]
  | cons x xs =>
    unfold splitBy
    by_cases hp : p x
    · simp [hp]
    · simp only [hp]
      cases splitBy p xs <;> simp

theorem splitBy_single (p : α → Bool) (l t : List α) (h : splitBy p l = [t]) : l = t := by
  induction l generalizing t with
  | nil =>
    simp [splitBy] at h
    simp [h]
  | cons x xs ih =>
    unfold splitBy at h
    by_cases hp : p x
    · rw [if_pos hp] at h
      simp at h
      exact absurd h.2 (splitBy_ne_nil p xs)
    · rw [if_neg hp] at h
      cases hr : splitBy p xs with
      | nil => exact absurd hr (splitBy_ne_nil p xs)
      | cons y ys =>
        rw [hr] at h
        simp at h
        obtain ⟨h1, h2⟩ := h
        subst h2
        rw [← h1, ih y hr]
    
theorem splitBy_pair (p : α → Bool) (l t1 t2 : List α) (h : splitBy p l = [t1, t2]) :
    ∃ c, p c = true ∧ l = t1 ++ c :: t2 := by
  induction l generalizing t1 t2 with
  | nil => simp [splitBy] at h
  | cons x xs ih =>
    unfold splitBy at h
    by_cases hp : p x
    · rw [if_pos hp] at h
      simp at h
      obtain ⟨h1, h2⟩ := h
      have hx := splitBy_single p xs t2 h2
      exact ⟨x, hp, by simp [hx, ← h1]⟩
    · rw [if_neg hp] at h
      cases hr : splitBy p xs with
      | nil => exact absurd hr (splitBy_ne_nil p xs)
      | cons y ys =>
        rw [hr] at h
        simp at h
        obtain ⟨h1, h2⟩ := h
        subst h2
        obtain ⟨c, hc, hxs⟩ := ih y t2 hr
        exact ⟨c, hc, by simp [hxs, ← h1]⟩
    
theorem shape_from_str_some (t : List Char) (sh : Shape)
    (h : shape_from_str t = some sh) : t = ['A'] ∨ t = ['B'] ∨ t = ['C'] := by
  unfold shape_from_str at h
  split at h
  · exact Or.inl rfl
  · exact Or.inr (Or.inl rfl)
  · exact Or.inr (Or.inr rfl)
  · exact absurd h (by simp)

theorem should_from_str_some (t : List Char) (sh : Should)
    (h : should_from_str t = some sh) : t = ['X'] ∨ t = ['Y'] ∨ t = ['Z'] := by
  unfold should_from_str at h
  split at h
  · exact Or.inl rfl
  · exact Or.inr (Or.inl rfl)
  · exact Or.inr (Or.inr rfl)
  · exact absurd h (by simp)

/-- C5: `parse_game` succeeds exactly on strings made of two tokens
separated by one single space, the first in `A`/`B`/`C`, the second in
`X`/`Y`/`Z`; every other string is a parse error. -/
theorem c5_parse_game_ok_iff :
    ∀ s : List Char,
      (parse_game s).isSome = true ↔
        ∃ t1 t2, s = t1 ++ ' ' :: t2 ∧
          (t1 = ['A'] ∨ t1 = ['B'] ∨ t1 = ['C']) ∧
          (t2 = ['X'] ∨ t2 = ['Y'] ∨ t2 = ['Z']) := by
  intro s
  constructor
  · intro h
    unfold parse_game at h
    cases hsp : splitBy (fun c => c == ' ') s with
    | nil => exact absurd hsp (splitBy_ne_nil _ s)
    | cons p0 rest =>
      rw [hsp] at h
      rcases rest with _ | ⟨p1, _ | ⟨q, qs⟩⟩
      · simp at h
      · cases hs0 : shape_from_str p0 with
        | none => simp [hs0] at h
        | some sh =>
          cases hs1 : should_from_str p1 with
          | none => simp [hs0, hs1] at h
          | some hi =>
            obtain ⟨c, hc, hl⟩ := splitBy_pair _ s p0 p1 hsp
            have hc' : c = ' ' := by
              simpa using hc
            subst hc'
            exact ⟨p0, p1, hl, shape_from_str_some p0 sh hs0,
              should_from_str_some p1 hi hs1⟩
      · simp at h
  · rintro ⟨t1, t2, rfl, h1, h2⟩
    rcases h1 with rfl | rfl | rfl <;> rcases h2 with rfl | rfl | rfl <;> decide

theorem c5_witness : (parse_game (String.toList "A X")).isSome = true :=
  (c5_parse_game_ok_iff (String.toList "A X")).mpr
    ⟨['A'], ['X'], rfl, Or.inl rfl, Or.inl rfl⟩

/-! ## Claim C7 -/

theorem find_range_eq_some (p : Nat → Bool) (m i : Nat) (hi : i < m) (hp : p i = true)
    (hmin : ∀ j, j < i → p j = false) : (List.range m).find? p = some i := by
  have hm : m = i + (m - i) := by omega
  rw [hm, List.range_add, List.find?_append]
  have h1 : (List.range i).find? p = none := by
    rw [List.find?_eq_none]
    intro j hj
    simp only [List.mem_range] at hj
    simp [hmin j hj]
  rw [h1]
  obtain ⟨k, hk⟩ : ∃ k, m - i = k + 1 := ⟨m - i - 1, by omega⟩
  rw [hk, List.range_succ_eq_map]
  simp [List.find?_cons, hp]

/-- C7: for every buffer and marker length `n ≥ 1`, `find_marker` returns
`Ok(i + n)` for the smallest `i` whose window `buffer[i..i+n]` is
pairwise distinct, and returns `Err` exactly when no length-`n` window of
pairwise-distinct characters exists (in particular when the buffer is
shorter than `n`); on `"bvwbjplbgvbhsrlpgdmjqwftvncz"` with `n = 4` it
returns `Ok(5)` as the day's unit tests assert. -/
theorem c7_find_marker_spec :
    ∀ (buffer : List Char) (n : Nat), 1 ≤ n →
      (∀ i, i + n ≤ buffer.length ∧ (window buffer n i).Nodup ∧
          (∀ j, j < i → ¬(window buffer n j).Nodup) →
        find_marker buffer n = some (i + n)) ∧
      (find_marker buffer n = none ↔
        ∀ i, i + n ≤ buffer.length → ¬(window buffer n i).Nodup) ∧
      find_marker (String.toList "bvwbjplbgvbhsrlpgdmjqwftvncz") 4 = some 5 := by
  intro buffer n hn
  refine ⟨?_, ?_, by decide⟩
  · rintro i ⟨hlen, hnodup, hmin⟩
    unfold find_marker
    rw [find_range_eq_some _ _ i (by omega) (by simpa using hnodup)
      (fun j hj => by simpa using hmin j hj)]
    rfl
  · unfold find_marker
    rw [Option.map_eq_none', List.find?_eq_none]
    constructor
    · intro h i hi
      have := h i (by simp only [List.mem_range]; omega)
      simpa using this
    · intro h i hi
      simp only [List.mem_range] at hi
      simpa using h i (by omega)

theorem c7_witness :
    find_marker (String.toList "bvwbjplbgvbhsrlpgdmjqwftvncz") 4 = some 5 :=
  (c7_find_marker_spec [] 1 (by decide)).2.2

/-! ## Claim C4 -/

/-- C4 counterexample: two monkeys with moduli 3 and `2^62` (product
`3 * 2^62`, below `2^64`, so `md` itself is exact) and one starting item
`2^32` on a squaring monkey.  The real program computes
`(2^32 % md)^2 = 2^64`, which wraps to 0 in `u64`; `0 % 3 = 0` sends the
item back to monkey 0, so after one round the optimised counts are
`[1, 0]`.  The exact reference computes `2^64 % 3 = 1`, throws to monkey 1,
which inspects the item in the same round: counts `[1, 1]`. -/
theorem c4_counterexample :
    rounds
        ([⟨0, [4294967296], Op.square, ⟨3, 0, 1⟩⟩,
          ⟨1, [], Op.add 0, ⟨4611686018427387904, 0, 1⟩⟩] : List Monkey) 1
        = some [1, 0] ∧
      roundsExact
        ([⟨0, [4294967296], Op.square, ⟨3, 0, 1⟩⟩,
          ⟨1, [], Op.add 0, ⟨4611686018427387904, 0, 1⟩⟩] : List Monkey) 1
        = [1, 1] := by
  constructor <;> rfl

theorem inspect_congr (m : Monkey) (md a b : Nat)
    (hdvd : m.throwDecision.modulus ∣ md) (hmd : md ≠ 0)
    (hfit : opFits m md = true) (hab : a % md = b % md) :
    ∃ v, inspect_item m a md = some ((inspect_item_exact m b).1, v) ∧
      v % md = (inspect_item_exact m b).2 % md := by
  have hlt : a % md < md := Nat.mod_lt _ (Nat.pos_of_ne_zero hmd)
  have h1 : Nat.ModEq md (a % md) b := (Nat.mod_modEq a md).trans hab
  unfold inspect_item inspect_item_exact
  rw [if_neg hmd]
  unfold opFits at hfit
  cases hop : m.operation with
  | add x =>
    rw [hop] at hfit
    have hfit' : md - 1 + x < 18446744073709551616 := by simpa using hfit
    have hw : (a % md + x) % 18446744073709551616 = a % md + x :=
      Nat.mod_eq_of_lt (by omega)
    refine ⟨a % md + x, ?_, h1.add_right x⟩
    show some (take_decision m.throwDecision ((a % md + x) % 18446744073709551616),
        (a % md + x) % 18446744073709551616)
      = some (take_decision m.throwDecision (b + x), a % md + x)
    rw [hw]
    have h2 : (a % md + x) % m.throwDecision.modulus
        = (b + x) % m.throwDecision.modulus := (h1.add_right x).of_dvd hdvd
    unfold take_decision
    rw [h2]
  | mult x =>
    rw [hop] at hfit
    have hfit' : (md - 1) * x < 18446744073709551616 := by simpa using hfit
    have hle : (a % md) * x ≤ (md - 1) * x := Nat.mul_le_mul (by omega) (le_refl x)
    have hw : (a % md) * x % 18446744073709551616 = (a % md) * x :=
      Nat.mod_eq_of_lt (lt_of_le_of_lt hle hfit')
    refine ⟨(a % md) * x, ?_, h1.mul_right x⟩
    show some (take_decision m.throwDecision ((a % md) * x % 18446744073709551616),
        (a % md) * x % 18446744073709551616)
      = some (take_decision m.throwDecision (b * x), (a % md) * x)
    rw [hw]
    have h2 : (a % md) * x % m.throwDecision.modulus
        = b * x % m.throwDecision.modulus := (h1.mul_right x).of_dvd hdvd
    unfold take_decision
    rw [h2]
  | square =>
    rw [hop] at hfit
    have hfit' : (md - 1) * (md - 1) < 18446744073709551616 := by simpa using hfit
    have hle : (a % md) * (a % md) ≤ (md - 1) * (md - 1) :=
      Nat.mul_le_mul (by omega) (by omega)
    have hw : (a % md) * (a % md) % 18446744073709551616 = (a % md) * (a % md) :=
      Nat.mod_eq_of_lt (lt_of_le_of_lt hle hfit')
    refine ⟨(a % md) * (a % md), ?_, h1.mul h1⟩
    show some (take_decision m.throwDecision ((a % md) * (a % md) % 18446744073709551616),
        (a % md) * (a % md) % 18446744073709551616)
      = some (take_decision m.throwDecision (b * b), (a % md) * (a % md))
    rw [hw]
    have h2 : (a % md) * (a % md) % m.throwDecision.modulus
        = b * b % m.throwDecision.modulus := (h1.mul h1).of_dvd hdvd
    unfold take_decision
    rw [h2]

theorem pushAt_congr (md i a b : Nat) (p q : List (List Nat))
    (hab : a % md = b % md)
    (h : List.Forall₂ (List.Forall₂ (fun x y => x % md = y % md)) p q) :
    List.Forall₂ (List.Forall₂ (fun x y => x % md = y % md))
      (pushAt i a p) (pushAt i b q) := by
  induction h generalizing i with
  | nil => cases i <;> exact List.Forall₂.nil
  | cons hl hrest ih =>
    cases i with
    | zero =>
      exact List.Forall₂.cons (List.rel_append hl (List.Forall₂.cons hab List.Forall₂.nil)) hrest
    | succ j => exact List.Forall₂.cons hl (ih j)

theorem monkeyTurn_congr (m : Monkey) (md : Nat)
    (hdvd : m.throwDecision.modulus ∣ md) (hmd : md ≠ 0) (hfit : opFits m md = true) :
    ∀ (ti te : List Nat), List.Forall₂ (fun x y => x % md = y % md) ti te →
      ∀ p q, List.Forall₂ (List.Forall₂ (fun x y => x % md = y % md)) p q →
        ∃ p', monkeyTurn m md ti p = some p' ∧
          List.Forall₂ (List.Forall₂ (fun x y => x % md = y % md)) p'
            (monkeyTurnExact m te q) := by
  intro ti te hti
  induction hti with
  | nil => intro p q hpq; exact ⟨p, rfl, hpq⟩
  | @cons a b ti' te' hab h' ih =>
    intro p q hpq
    obtain ⟨v, hv, hvm⟩ := inspect_congr m md a b hdvd hmd hfit hab
    obtain ⟨p', hp', hLL⟩ := ih (pushAt (inspect_item_exact m b).1 v p)
      (pushAt (inspect_item_exact m b).1 (inspect_item_exact m b).2 q)
      (pushAt_congr md _ _ _ _ _ hvm hpq)
    refine ⟨p', ?_, ?_⟩
    · show monkeyTurn m md (a :: ti') p = some p'
      simp only [monkeyTurn, hv]
      exact hp'
    · have hred : monkeyTurnExact m (b :: te') q
          = monkeyTurnExact m te'
              (pushAt (inspect_item_exact m b).1 (inspect_item_exact m b).2 q) := rfl
      rw [hred]
      exact hLL

theorem getD_congr (md : Nat) (p q : List (List Nat))
    (h : List.Forall₂ (List.Forall₂ (fun x y => x % md = y % md)) p q) (i : Nat) :
    List.Forall₂ (fun x y => x % md = y % md) (p.getD i []) (q.getD i []) := by
  induction h generalizing i with
  | nil => exact List.Forall₂.nil
  | cons hl hrest ih =>
    cases i with
    | zero => exact hl
    | succ j => exact ih j

theorem set_nil_congr (md i : Nat) (p q : List (List Nat))
    (h : List.Forall₂ (List.Forall₂ (fun x y => x % md = y % md)) p q) :
    List.Forall₂ (List.Forall₂ (fun x y => x % md = y % md))
      (p.set i []) (q.set i []) := by
  induction h generalizing i with
  | nil => exact List.Forall₂.nil
  | cons hl hrest ih =>
    cases i with
    | zero => exact List.Forall₂.cons List.Forall₂.nil hrest
    | succ j => exact List.Forall₂.cons hl (ih j)

theorem roundLoop_congr (md : Nat) (hmd : md ≠ 0) :
    ∀ ms : List Monkey,
      (∀ m ∈ ms, m.throwDecision.modulus ∣ md ∧ opFits m md = true) →
      ∀ mk items itemsE pending pendingE counts,
        List.Forall₂ (List.Forall₂ (fun x y => x % md = y % md)) items itemsE →
        List.Forall₂ (List.Forall₂ (fun x y => x % md = y % md)) pending pendingE →
        ∃ r, roundLoop ms mk md items pending counts = some r ∧
          List.Forall₂ (List.Forall₂ (fun x y => x % md = y % md)) r.1
              (roundLoopExact ms mk itemsE pendingE counts).1 ∧
            r.2 = (roundLoopExact ms mk itemsE pendingE counts).2 := by
  intro ms
  induction ms with
  | nil =>
    intro _ mk items itemsE pending pendingE counts hitems hpending
    exact ⟨(pending, counts), rfl, hpending, rfl⟩
  | cons m ms ih =>
    intro h mk items itemsE pending pendingE counts hitems hpending
    have hti := List.rel_append (getD_congr md items itemsE hitems mk)
      (getD_congr md pending pendingE hpending mk)
    have hlen := hti.length_eq
    obtain ⟨hdvd, hfit⟩ := h m (List.mem_cons_self m ms)
    obtain ⟨p', hp', hLL⟩ := monkeyTurn_congr m md hdvd hmd hfit _ _ hti
      _ _ (set_nil_congr md mk pending pendingE hpending)
    have h' : ∀ x ∈ ms, x.throwDecision.modulus ∣ md ∧ opFits x md = true :=
      fun x hx => h x (List.mem_cons_of_mem m hx)
    simp only [roundLoop, roundLoopExact]
    rw [← hlen]
    simp only [hp']
    exact ih h' (mk + 1) items itemsE p' _ _ hitems hLL

theorem replicate_nil_congr (md k : Nat) :
    List.Forall₂ (List.Forall₂ (fun x y : Nat => x % md = y % md))
      (List.replicate k ([] : List Nat)) (List.replicate k []) := by
  induction k with
  | zero => exact List.Forall₂.nil
  | succ n ih => exact List.Forall₂.cons List.Forall₂.nil ih

theorem roundsAux_congr (md : Nat) (hmd : md ≠ 0) (monkeys : List Monkey)
    (h : ∀ m ∈ monkeys, m.throwDecision.modulus ∣ md ∧ opFits m md = true) :
    ∀ (n : Nat) items itemsE counts,
      List.Forall₂ (List.Forall₂ (fun x y => x % md = y % md)) items itemsE →
      roundsAux n monkeys md items counts
        = some (roundsAuxExact n monkeys itemsE counts) := by
  intro n
  induction n with
  | zero => intro items itemsE counts hLL; rfl
  | succ n ih =>
    intro items itemsE counts hLL
    have hlen : items.length = itemsE.length := hLL.length_eq
    obtain ⟨r, hr, hr1, hr2⟩ := roundLoop_congr md hmd monkeys h 0 items itemsE
      (List.replicate items.length []) (List.replicate itemsE.length []) counts hLL
      (hlen ▸ replicate_nil_congr md items.length)
    simp only [roundsAux, roundsAuxExact, hr]
    rw [hr2]
    exact ih r.1 _ _ hr1

theorem LL_refl (md : Nat) (ls : List (List Nat)) :
    List.Forall₂ (List.Forall₂ (fun x y => x % md = y % md)) ls ls := by
  induction ls with
  | nil => exact List.Forall₂.nil
  | cons l ls ih =>
    refine List.Forall₂.cons ?_ ih
    induction l with
    | nil => exact List.Forall₂.nil
    | cons x xs ihx => exact List.Forall₂.cons rfl ihx

theorem one_le_prod_nat : ∀ ms : List Nat, (∀ x ∈ ms, 1 ≤ x) → 1 ≤ ms.prod := by
  intro ms
  induction ms with
  | nil => intro _; simp
  | cons x xs ih =>
    intro h
    rw [List.prod_cons]
    have hxs := ih (fun y hy => h y (List.mem_cons_of_mem x hy))
    have hx := h x (List.mem_cons_self x xs)
    simpa using Nat.mul_le_mul hx hxs

theorem foldl_wrapmul : ∀ (ms : List Nat) (a : Nat), (∀ x ∈ ms, 1 ≤ x) →
    a * ms.prod < 18446744073709551616 →
    ms.foldl (fun acc x => acc * x % 18446744073709551616) a = a * ms.prod := by
  intro ms
  induction ms with
  | nil => intro a _ _; simp
  | cons x xs ih =>
    intro a hpos hbound
    have hxs : ∀ y ∈ xs, 1 ≤ y := fun y hy => hpos y (List.mem_cons_of_mem x hy)
    have h1 : 1 ≤ xs.prod := one_le_prod_nat xs hxs
    rw [List.prod_cons, ← Nat.mul_assoc] at hbound
    have hax : a * x < 18446744073709551616 := by
      have hstep : a * x * 1 ≤ a * x * xs.prod := Nat.mul_le_mul (le_refl (a * x)) h1
      omega
    simp only [List.foldl_cons]
    rw [Nat.mod_eq_of_lt hax]
    rw [ih (a * x) hxs hbound]
    rw [List.prod_cons, ← Nat.mul_assoc]

/-- C4 (amended): the optimised simulation agrees exactly with the
unbounded reference whenever the `u64` arithmetic does not wrap: if every
monkey's modulus is positive, the exact product `md` of the moduli is
below `2^64` (so the `u64` product neither wraps nor reaches 0), and each
monkey's operation applied to a value reduced modulo `md` stays below
`2^64`, then `rounds` returns exactly the per-monkey inspection counts of
the exact reference simulation, for every round count — reduction modulo
`md` never changes the outcome of `take_decision`'s divisibility test by
any monkey's modulus.  (These conditions hold for the puzzle's inputs;
without them the wrap changes the counts, as the counterexample shows.) -/
theorem c4_amended :
    ∀ (monkeys : List Monkey) (n : Nat),
      (∀ m ∈ monkeys, 1 ≤ m.throwDecision.modulus) →
      (monkeys.map (fun m => m.throwDecision.modulus)).prod < 18446744073709551616 →
      (∀ m ∈ monkeys,
        opFits m ((monkeys.map (fun m => m.throwDecision.modulus)).prod) = true) →
      rounds monkeys n = some (roundsExact monkeys n) := by
  intro monkeys n h1 h2 h3
  have hpos : ∀ x ∈ monkeys.map (fun m => m.throwDecision.modulus), 1 ≤ x := by
    intro x hx
    obtain ⟨m, hm, rfl⟩ := List.mem_map.mp hx
    exact h1 m hm
  have hmd1 : 1 ≤ (monkeys.map (fun m => m.throwDecision.modulus)).prod :=
    one_le_prod_nat _ hpos
  have hfold := foldl_wrapmul (monkeys.map (fun m => m.throwDecision.modulus)) 1 hpos
    (by simpa using h2)
  rw [Nat.one_mul] at hfold
  simp only [rounds, roundsExact]
  rw [hfold]
  exact roundsAux_congr ((monkeys.map (fun m => m.throwDecision.modulus)).prod)
    (by omega) monkeys
    (fun m hm =>
      ⟨List.dvd_prod (List.mem_map_of_mem (fun m => m.throwDecision.modulus) hm),
        h3 m hm⟩)
    n _ _ _ (LL_refl _ _)

theorem c4_witness :
    rounds
        ([⟨0, [5], Op.square, ⟨7, 1, 1⟩⟩,
          ⟨1, [], Op.add 1, ⟨3, 0, 0⟩⟩] : List Monkey) 2
      = some (roundsExact
        ([⟨0, [5], Op.square, ⟨7, 1, 1⟩⟩,
          ⟨1, [], Op.add 1, ⟨3, 0, 0⟩⟩] : List Monkey) 2) :=
  c4_amended _ 2 (by decide) (by decide) (by decide)

/-! ## Claim C2 -/

theorem getAt_append (p q : List Nat) :
    ∀ t : FsTree, getAt (p ++ q) t = (getAt p t).bind (getAt q) := by
  induction p with
  | nil => intro t; rfl
  | cons i p' ih =>
    intro t
    simp only [List.cons_append, getAt]
    cases t.children[i]? with
    | none => rfl
    | some c => exact ih c

theorem getAt_dropLast (p : List Nat) (t : FsTree) (h : (getAt p t).isSome = true) :
    (getAt p.dropLast t).isSome = true := by
  cases hp : p.eq_nil_or_concat with
  | inl hnil => subst hnil; rfl
  | inr hcon =>
    obtain ⟨q, i, rfl⟩ := hcon
    rw [List.concat_eq_append] at h ⊢
    rw [List.dropLast_concat]
    rw [getAt_append q [i]] at h
    cases hq : getAt q t with
    | none => rw [hq] at h; simp at h
    | some c => rfl

theorem updList_getElem?_same (f : FsTree → FsTree) :
    ∀ (i : Nat) (cs : List FsTree), (updList f i cs)[i]? = (cs[i]?).map f := by
  intro i
  induction i with
  | zero =>
    intro cs
    cases cs <;> simp [updList]
  | succ j ih =>
    intro cs
    cases cs with
    | nil => simp [updList]
    | cons c cs =>
      simp only [updList, List.getElem?_cons_succ]
      exact ih cs

theorem updList_updList (f g : FsTree → FsTree) :
    ∀ (i : Nat) (cs : List FsTree),
      updList f i (updList g i cs) = updList (fun x => f (g x)) i cs := by
  intro i
  induction i with
  | zero =>
    intro cs
    cases cs <;> rfl
  | succ j ih =>
    intro cs
    cases cs with
    | nil => rfl
    | cons c cs =>
      simp only [updList]
      rw [ih cs]

theorem getAt_updAt (p : List Nat) (g : FsTree → FsTree) :
    ∀ t : FsTree, getAt p (updAt p g t) = (getAt p t).map g := by
  induction p with
  | nil => intro t; rfl
  | cons i p' ih =>
    intro t
    cases t with
    | node d cs =>
      simp only [updAt, getAt, FsTree.children]
      rw [updList_getElem?_same]
      cases hc : cs[i]? with
      | none => rfl
      | some c =>
        simp only [Option.map_some']
        exact ih c

theorem getAt_incAlong (sz : Nat) (p : List Nat) :
    ∀ t : FsTree, getAt p (incAlong sz p t) =
      (getAt p t).map (fun c =>
        match c with
        | .node d cs => .node (increase_size d sz) cs) := by
  induction p with
  | nil =>
    intro t
    cases t with
    | node d cs => rfl
  | cons i p' ih =>
    intro t
    cases t with
    | node d cs =>
      simp only [incAlong, getAt, FsTree.children]
      rw [updList_getElem?_same]
      cases hc : cs[i]? with
      | none => rfl
      | some c =>
        simp only [Option.map_some']
        exact ih c

theorem findChild_isSome (nm : List Char) :
    ∀ (cs : List FsTree) (i : Nat), findChild nm cs = some i → (cs[i]?).isSome = true := by
  intro cs
  induction cs with
  | nil => intro i h; simp [findChild] at h
  | cons c cs ih =>
    intro i h
    unfold findChild at h
    by_cases hn : c.data.name = nm
    · rw [if_pos hn] at h
      obtain rfl : i = 0 := by simpa using h.symm
      simp
    · rw [if_neg hn] at h
      cases hfc : findChild nm cs with
      | none => rw [hfc] at h; simp at h
      | some j =>
        rw [hfc] at h
        obtain rfl : i = j + 1 := by simpa using h.symm
        simp only [List.getElem?_cons_succ]
        exact ih j hfc

theorem fileSizeSumL_append (cs : List FsTree) (c : FsTree) :
    fileSizeSumL (cs ++ [c]) = fileSizeSumL cs + fileSizeSum c := by
  induction cs with
  | nil => simp [fileSizeSumL]
  | cons x xs ih =>
    show fileSizeSum x + fileSizeSumL (xs ++ [c]) = fileSizeSum x + fileSizeSumL xs + fileSizeSum c
    rw [ih]
    omega

theorem sizesOkL_append (cs : List FsTree) (c : FsTree) :
    sizesOkL (cs ++ [c]) = true ↔ (sizesOkL cs = true ∧ sizesOk c = true) := by
  induction cs with
  | nil => simp [sizesOkL]
  | cons x xs ih =>
    show (sizesOk x && sizesOkL (xs ++ [c])) = true ↔ _
    rw [Bool.and_eq_true, ih]
    show _ ↔ (sizesOk x && sizesOkL xs) = true ∧ _
    rw [Bool.and_eq_true]
    tauto

theorem fileSizeSumL_updList (f : FsTree → FsTree) :
    ∀ (i : Nat) (cs : List FsTree) (c : FsTree), cs[i]? = some c →
      fileSizeSumL (updList f i cs) + fileSizeSum c
        = fileSizeSumL cs + fileSizeSum (f c) := by
  intro i
  induction i with
  | zero =>
    intro cs c h
    cases cs with
    | nil => simp at h
    | cons x xs =>
      obtain rfl : x = c := by simpa using h
      simp only [updList, fileSizeSumL]
      omega
  | succ j ih =>
    intro cs c h
    cases cs with
    | nil => simp at h
    | cons x xs =>
      have hj : xs[j]? = some c := by simpa using h
      simp only [updList, fileSizeSumL]
      have := ih xs c hj
      omega

theorem sizesOkL_updList (f : FsTree → FsTree) :
    ∀ (i : Nat) (cs : List FsTree) (c : FsTree), cs[i]? = some c →
      sizesOkL cs = true → sizesOk (f c) = true → sizesOkL (updList f i cs) = true := by
  intro i
  induction i with
  | zero =>
    intro cs c h hok hfc
    cases cs with
    | nil => simp at h
    | cons x xs =>
      obtain rfl : x = c := by simpa using h
      have hok' : sizesOk x = true ∧ sizesOkL xs = true := by
        simpa [sizesOkL, Bool.and_eq_true] using hok
      simp only [updList, sizesOkL]
      simp [hfc, hok'.2]
  | succ j ih =>
    intro cs c h hok hfc
    cases cs with
    | nil => simp at h
    | cons x xs =>
      have hj : xs[j]? = some c := by simpa using h
      have hok' : sizesOk x = true ∧ sizesOkL xs = true := by
        simpa [sizesOkL, Bool.and_eq_true] using hok
      simp only [updList, sizesOkL]
      simp [hok'.1, ih xs c hj hok'.2 hfc]

theorem sizesOkL_lookup :
    ∀ (i : Nat) (cs : List FsTree) (c : FsTree), cs[i]? = some c →
      sizesOkL cs = true → sizesOk c = true := by
  intro i
  induction i with
  | zero =>
    intro cs c h hok
    cases cs with
    | nil => simp at h
    | cons x xs =>
      obtain rfl : x = c := by simpa using h
      exact ((Bool.and_eq_true _ _).mp hok).1
  | succ j ih =>
    intro cs c h hok
    cases cs with
    | nil => simp at h
    | cons x xs =>
      have hj : xs[j]? = some c := by simpa using h
      exact ih xs c hj ((Bool.and_eq_true _ _).mp hok).2

theorem getAt_cons_valid (i : Nat) (p' : List Nat) (d : FsNode) (cs : List FsTree)
    (h : (getAt (i :: p') (FsTree.node d cs)).isSome = true) :
    ∃ c, cs[i]? = some c ∧ (getAt p' c).isSome = true := by
  simp only [getAt, FsTree.children] at h
  cases hc : cs[i]? with
  | none => rw [hc] at h; simp at h
  | some c =>
    rw [hc] at h
    exact ⟨c, rfl, h⟩

theorem sizesOk_children (d : FsNode) (cs : List FsTree)
    (h : sizesOk (.node d cs) = true) : sizesOkL cs = true := by
  cases d with
  | fsDirectory info =>
    simp only [sizesOk, Bool.and_eq_true, beq_iff_eq] at h
    exact h.2
  | fsFile info => simpa [sizesOk] using h

theorem sizesOk_newDirNode (nm : List Char) : sizesOk (newDirNode nm) = true := rfl

theorem sizesOk_newFileNode (nm : List Char) (sz : Nat) :
    sizesOk (newFileNode nm sz) = true := rfl

theorem fileSizeSum_createFile (nm : List Char) (sz : Nat) :
    ∀ (p : List Nat) (t : FsTree), (getAt p t).isSome = true →
      fileSizeSum (incAlong sz p (updAt p (appendChild (newFileNode nm sz)) t))
        = fileSizeSum t + sz := by
  intro p
  induction p with
  | nil =>
    intro t _
    cases t with
    | node d cs =>
      simp only [updAt, appendChild, incAlong]
      cases d with
      | fsDirectory info =>
        simp only [increase_size, fileSizeSum, fileSizeSumL_append, newFileNode, fileSizeSumL]
        omega
      | fsFile info =>
        simp only [increase_size, fileSizeSum, fileSizeSumL_append, newFileNode, fileSizeSumL]
        omega
  | cons i p' ih =>
    intro t hval
    cases t with
    | node d cs =>
      obtain ⟨c, hc, hcv⟩ := getAt_cons_valid i p' d cs hval
      simp only [updAt, incAlong, FsTree.children]
      rw [updList_updList]
      have hsum := fileSizeSumL_updList
        (fun x => incAlong sz p' (updAt p' (appendChild (newFileNode nm sz)) x)) i cs c hc
      rw [ih c hcv] at hsum
      cases d with
      | fsDirectory info =>
        simp only [increase_size, fileSizeSum]
        omega
      | fsFile info =>
        simp only [increase_size, fileSizeSum]
        omega

theorem sizesOk_createFile (nm : List Char) (sz : Nat) :
    ∀ (p : List Nat) (t : FsTree), (getAt p t).isSome = true → sizesOk t = true →
      sizesOk (incAlong sz p (updAt p (appendChild (newFileNode nm sz)) t)) = true := by
  intro p
  induction p with
  | nil =>
    intro t _ hok
    cases t with
    | node d cs =>
      simp only [updAt, appendChild, incAlong]
      cases d with
      | fsDirectory info =>
        simp only [sizesOk, Bool.and_eq_true, beq_iff_eq] at hok
        simp only [increase_size, sizesOk, Bool.and_eq_true, beq_iff_eq,
          fileSizeSumL_append, sizesOkL_append, newFileNode, fileSizeSumL, fileSizeSum,
          sizesOkL]
        refine ⟨by omega, hok.2, by simp [fileSizeSumL]⟩
      | fsFile info =>
        simp only [sizesOk, Bool.and_eq_true] at hok
        simp only [increase_size, sizesOk, Bool.and_eq_true, sizesOkL_append,
          newFileNode, sizesOkL]
        exact ⟨trivial, hok.2, by simp [fileSizeSumL]⟩
  | cons i p' ih =>
    intro t hval hok
    cases t with
    | node d cs =>
      obtain ⟨c, hc, hcv⟩ := getAt_cons_valid i p' d cs hval
      simp only [updAt, incAlong, FsTree.children]
      rw [updList_updList]
      have hcok : sizesOk c = true := sizesOkL_lookup i cs c hc
        (sizesOk_children _ _ hok)
      have hfok : sizesOk
          (incAlong sz p' (updAt p' (appendChild (newFileNode nm sz)) c)) = true :=
        ih c hcv hcok
      have hokl : sizesOkL (updList
          (fun x => incAlong sz p' (updAt p' (appendChild (newFileNode nm sz)) x)) i cs)
          = true :=
        sizesOkL_updList _ i cs c hc
          (sizesOk_children _ _ hok) hfok
      have hsum := fileSizeSumL_updList
        (fun x => incAlong sz p' (updAt p' (appendChild (newFileNode nm sz)) x)) i cs c hc
      rw [fileSizeSum_createFile nm sz p' c hcv] at hsum
      cases d with
      | fsDirectory info =>
        simp only [sizesOk, Bool.and_eq_true, beq_iff_eq] at hok
        simp only [increase_size, sizesOk, Bool.and_eq_true, beq_iff_eq]
        exact ⟨by omega, hokl⟩
      | fsFile info =>
        simp only [increase_size, sizesOk, Bool.and_eq_true]
        exact ⟨trivial, hokl⟩

theorem fileSizeSum_createDir (nm : List Char) :
    ∀ (p : List Nat) (t : FsTree), (getAt p t).isSome = true →
      fileSizeSum (updAt p (appendChild (newDirNode nm)) t) = fileSizeSum t := by
  intro p
  induction p with
  | nil =>
    intro t _
    cases t with
    | node d cs =>
      simp only [updAt, appendChild, fileSizeSum, fileSizeSumL_append, newDirNode,
        fileSizeSumL]
      omega
  | cons i p' ih =>
    intro t hval
    cases t with
    | node d cs =>
      obtain ⟨c, hc, hcv⟩ := getAt_cons_valid i p' d cs hval
      simp only [updAt, FsTree.children]
      have hsum := fileSizeSumL_updList
        (updAt p' (appendChild (newDirNode nm))) i cs c hc
      rw [ih c hcv] at hsum
      simp only [fileSizeSum]
      omega

theorem sizesOk_createDir (nm : List Char) :
    ∀ (p : List Nat) (t : FsTree), (getAt p t).isSome = true → sizesOk t = true →
      sizesOk (updAt p (appendChild (newDirNode nm)) t) = true := by
  intro p
  induction p with
  | nil =>
    intro t _ hok
    cases t with
    | node d cs =>
      simp only [updAt, appendChild]
      cases d with
      | fsDirectory info =>
        simp only [sizesOk, Bool.and_eq_true, beq_iff_eq] at hok
        simp only [sizesOk, Bool.and_eq_true, beq_iff_eq, fileSizeSumL_append,
          sizesOkL_append, newDirNode, fileSizeSumL, fileSizeSum, sizesOkL]
        refine ⟨by omega, hok.2, by simp [fileSizeSumL]⟩
      | fsFile info =>
        simp only [sizesOk, Bool.and_eq_true] at hok
        simp only [sizesOk, Bool.and_eq_true, sizesOkL_append, newDirNode, sizesOkL]
        exact ⟨trivial, hok.2, by simp [fileSizeSumL]⟩
  | cons i p' ih =>
    intro t hval hok
    cases t with
    | node d cs =>
      obtain ⟨c, hc, hcv⟩ := getAt_cons_valid i p' d cs hval
      simp only [updAt, FsTree.children]
      have hcok : sizesOk c = true := sizesOkL_lookup i cs c hc
        (sizesOk_children _ _ hok)
      have hokl : sizesOkL (updList (updAt p' (appendChild (newDirNode nm))) i cs) = true :=
        sizesOkL_updList _ i cs c hc
          (sizesOk_children _ _ hok)
          (ih c hcv hcok)
      have hsum := fileSizeSumL_updList (updAt p' (appendChild (newDirNode nm))) i cs c hc
      rw [fileSizeSum_createDir nm p' c hcv] at hsum
      cases d with
      | fsDirectory info =>
        simp only [sizesOk, Bool.and_eq_true, beq_iff_eq] at hok
        simp only [sizesOk, Bool.and_eq_true, beq_iff_eq]
        exact ⟨by omega, hokl⟩
      | fsFile info =>
        simp only [sizesOk, Bool.and_eq_true]
        exact ⟨trivial, hokl⟩

theorem applyCmd_inv (st : FsTree × List Nat) (cmd : TreeBuildCommand)
    (hval : (getAt st.2 st.1).isSome = true) (hok : sizesOk st.1 = true) :
    (getAt (applyCmd st cmd).2 (applyCmd st cmd).1).isSome = true ∧
      sizesOk (applyCmd st cmd).1 = true := by
  obtain ⟨t, p⟩ := st
  cases cmd with
  | moveToParent => exact ⟨getAt_dropLast p t hval, hok⟩
  | moveTo nm =>
    cases hcur : getAt p t with
    | none =>
      rw [hcur] at hval
      simp at hval
    | some cur =>
      cases hfc : findChild nm cur.children with
      | none =>
        simp only [applyCmd, hcur, hfc]
        exact ⟨rfl, hok⟩
      | some i =>
        simp only [applyCmd, hcur, hfc]
        refine ⟨?_, hok⟩
        show (getAt (p ++ [i]) t).isSome = true
        rw [getAt_append p [i], hcur]
        have hcc := findChild_isSome nm cur.children i hfc
        cases hc : cur.children[i]? with
        | none => rw [hc] at hcc; simp at hcc
        | some c => simp [getAt, hc]
  | createDir nm =>
    refine ⟨?_, sizesOk_createDir nm p t hval hok⟩
    show (getAt p (updAt p (appendChild (newDirNode nm)) t)).isSome = true
    rw [getAt_updAt]
    simpa using hval
  | createFile nm sz =>
    refine ⟨?_, sizesOk_createFile nm sz p t hval hok⟩
    show (getAt p (incAlong sz p (updAt p (appendChild (newFileNode nm sz)) t))).isSome = true
    rw [getAt_incAlong, getAt_updAt]
    simpa using hval
  | doNothing => exact ⟨hval, hok⟩

theorem buildFs_inv (cmds : List TreeBuildCommand) :
    ∀ st : FsTree × List Nat, (getAt st.2 st.1).isSome = true → sizesOk st.1 = true →
      sizesOk (cmds.foldl applyCmd st).1 = true := by
  induction cmds with
  | nil => intro st _ hok; exact hok
  | cons c cmds ih =>
    intro st hval hok
    obtain ⟨h1, h2⟩ := applyCmd_inv st c hval hok
    exact ih _ h1 h2

/-- C2: after folding any list of transcript commands (so in particular any
parseable transcript, whatever `cd` navigation it contains), every
directory node's `size` equals the sum of the `size` fields of all file
nodes in its subtree, and `increase_size` never changes a file node's
size, so every file keeps exactly the size it was created with. -/
theorem c2_file_system_sizes :
    ∀ cmds : List TreeBuildCommand,
      sizesOk (buildFs cmds) = true ∧
        ∀ (info : FsNodeInfo) (sz : Nat),
          increase_size (FsNode.fsFile info) sz = FsNode.fsFile info := by
  intro cmds
  exact ⟨buildFs_inv cmds rootState rfl rfl, fun info sz => rfl⟩

/-! ## Claim C6 -/

/-- C6 counterexample: the input `"$ ls"` parses successfully (one `ls`
statement, a filesystem consisting of the bare root directory of size 0),
yet the solver hits the underflowing `usize` subtraction
`fs_size - (70_000_000 - 30_000_000)` (a panic in a debug build), instead
of returning `Ok`. -/
theorem c6_counterexample :
    file_system (String.toList "$ ls")
        = some (FsTree.node (.fsDirectory ⟨['/'], 0⟩) [], []) ∧
      total_size_of_small_directories_and_smallest_to_delete (String.toList "$ ls")
        = Day7Out.underflowPanic := by
  constructor <;> rfl

/-- C6 (amended): for every input string that `file_system` parses
successfully *and whose resulting filesystem has total size at least
`70_000_000 - 30_000_000`*, the solver returns `Ok` (of the small-directory
total and the smallest-deletable-directory size) without panicking; for a
successfully parsed filesystem smaller than that, the final subtraction
underflows. -/
theorem c6_day7_ok :
    ∀ (content : List Char) (fs : FsTree) (rest : List Char),
      file_system content = some (fs, rest) →
      70000000 - 30000000 ≤ fs.data.size →
      total_size_of_small_directories_and_smallest_to_delete content =
        Day7Out.ok (total_size_of_directories_up_to fs 100000,
          smallest_directory_to_delete_size fs
            (fs.data.size - (70000000 - 30000000))) := by
  intro content fs rest hparse hsize
  unfold total_size_of_small_directories_and_smallest_to_delete
  rw [hparse]
  simp only []
  rw [if_neg (by omega)]

theorem c6_witness :
    total_size_of_small_directories_and_smallest_to_delete
        (String.toList "40000000 x") = Day7Out.ok (0, 40000000) := by
  have h := c6_day7_ok (String.toList "40000000 x")
    (FsTree.node (.fsDirectory ⟨['/'], 40000000⟩)
      [FsTree.node (.fsFile ⟨['x'], 40000000⟩) []])
    [] rfl (by decide)
  rw [h]
  rfl
